import Mathlib

/-!
Verification of the ultrasound-report PoC core against its design spec.

Shallow embedding of:
  * `src/core/term_correction.py` — `Term`, `TermCorrector.__init__`,
    `TermCorrector.load`, `TermCorrector.correct`, `replace_case_insensitive`;
  * `src/core/structuring.py` — `Structurer.extract`;
  * `src/core/stt_process.py` (lines 146–162) — the buffering/gating loop,
    energy gate and peak normalization inside `stt_worker_main`.

Python strings are modelled as `List Char` (`LC`); Python floats as `ℚ`
(the gating comparisons are exact, see the comments at `loopStep`);
Python dicts as insertion-ordered association lists with the update
semantics of `dictInsert`.
-/

set_option maxRecDepth 10000

abbrev LC := List Char

/-- `str.lower()` (ASCII case folding suffices for the dictionary data). -/
def lower (s : LC) : LC := s.map Char.toLower

/-- Index of the first occurrence of `needle` in the suffix of the haystack,
counting from `i`; models Python `str.find` (which returns `0` for an empty
needle). -/
def findSubAux (needle : LC) : LC → Nat → Option Nat
  | [], i => if needle = [] then some i else none
  | c :: rest, i =>
    if needle.isPrefixOf (c :: rest) then some i else findSubAux needle rest (i + 1)

/-- `hay.find(needle)` as an `Option`: `some idx` of first occurrence. -/
def findSub (hay needle : LC) : Option Nat := findSubAux needle hay 0

/-- Python `needle in hay` (substring test). -/
def containsSub (hay needle : LC) : Bool := (findSub hay needle).isSome

/-- `replace_case_insensitive` (term_correction.py lines 76–81):
find first occurrence of `needle_lower` in `text.lower()`; if absent return
`text`, else splice `replacement` over that span. -/
def replace_case_insensitive (text needle_lower replacement : LC) : LC :=
  match findSub (lower text) needle_lower with
  | none => text
  | some idx => text.take idx ++ replacement ++ text.drop (idx + needle_lower.length)

/-- `Term` dataclass: `{key, canonical, aliases}`. -/
structure Term where
  key : LC
  canonical : LC
  aliases : List LC
deriving DecidableEq

/-- A Correction record `{"from": src, "to": tgt, "score": score}`
(`from` is a Lean keyword, hence the field name `src`). -/
structure Change where
  src : LC
  tgt : LC
  score : ℚ
deriving DecidableEq

/-- Python `dict` assignment `m[k] = v`: update the value in place if the key
is present (keeping its insertion position), else append at the end. -/
def dictInsert (m : List (LC × LC)) (k v : LC) : List (LC × LC) :=
  match m with
  | [] => [(k, v)]
  | p :: rest => if p.1 = k then (p.1, v) :: rest else p :: dictInsert rest k v

/-- `self.key_to_canonical` as built by `TermCorrector.__init__`
(lines 20–21): `key_to_canonical[t.key] = t.canonical` for each term in order. -/
def buildK2C (terms : List Term) : List (LC × LC) :=
  terms.foldl (fun m t => dictInsert m t.key t.canonical) []

/-- `self.direct` as built by `TermCorrector.__init__` (lines 20–24): for each
term, `direct[canonical.lower()] = canonical`, then for each alias
`direct[alias.lower()] = canonical`. -/
def buildDirect (terms : List Term) : List (LC × LC) :=
  terms.foldl
    (fun m t =>
      t.aliases.foldl (fun m2 a => dictInsert m2 (lower a) t.canonical)
        (dictInsert m (lower t.canonical) t.canonical))
    []

/-- Stable insertion into a list sorted by descending key length: the new pair
goes before the first entry whose key is not longer, so earlier entries keep
priority among equal lengths. -/
def insertDesc (p : LC × LC) : List (LC × LC) → List (LC × LC)
  | [] => [p]
  | q :: qs => if q.1.length ≤ p.1.length then p :: q :: qs else q :: insertDesc p qs

/-- `sorted(self.direct.items(), key=lambda x: -len(x[0]))` (line 38):
a stable sort by descending key length over the insertion-ordered items. -/
def sortDesc (l : List (LC × LC)) : List (LC × LC) := l.foldr insertDesc []

/-- Pass 1 of `TermCorrector.correct` (lines 38–44).  The Python code keeps a
`lowered` variable that it refreshes after each effective replacement; it
always equals `raw.lower()` at the test, so we recompute `lower raw`
directly.  An entry fires when its (lower-cased) key is nonempty
(`if alias_l and ...` — Python truthiness) and occurs in the lowered text;
a Correction with score 1.0 is recorded only when the text actually changed. -/
def pass1 : List (LC × LC) → LC → List Change → LC × List Change
  | [], raw, ch => (raw, ch)
  | (al, canon) :: rest, raw, ch =>
    if !al.isEmpty && containsSub (lower raw) al then
      let raw2 := replace_case_insensitive raw al canon
      if raw2 = raw then pass1 rest raw2 ch
      else pass1 rest raw2 (ch ++ [⟨al, canon, 1⟩])
    else pass1 rest raw ch

/-- Python `str.split()`: split on whitespace runs, discarding empty pieces.
`cur` accumulates the current word reversed. -/
def splitWsAux : LC → LC → List LC
  | [], cur => if cur.isEmpty then [] else [cur.reverse]
  | c :: cs, cur =>
    if c.isWhitespace then
      if cur.isEmpty then splitWsAux cs [] else cur.reverse :: splitWsAux cs []
    else splitWsAux cs (c :: cur)

def splitWs (s : LC) : List LC := splitWsAux s []

/-- The `" "`-joining of a token list (lines 51 and 74). -/
def joinTok (ts : List LC) : LC := (ts.intersperse [' ']).flatten

/-- Joining the split tokens back — the whitespace normalization `correct`
applies to any text it returns. -/
def normWs (s : LC) : LC := joinTok (splitWs s)

/-- Longest common subsequence length with explicit fuel (structural on the
fuel so that the kernel can evaluate it); `fuel = a.length + b.length`
always suffices since every recursive call shortens the pair. -/
def lcsF : Nat → LC → LC → Nat
  | 0, _, _ => 0
  | _ + 1, [], _ => 0
  | _ + 1, _ :: _, [] => 0
  | f + 1, x :: xs, y :: ys =>
    if x = y then lcsF f xs ys + 1
    else max (lcsF f (x :: xs) ys) (lcsF f xs (y :: ys))

def lcs (a b : LC) : Nat := lcsF (a.length + b.length) a b

/-- `Levenshtein.ratio(a, b)` of the python-Levenshtein library: the
normalized indel similarity `(|a| + |b| - dist) / (|a| + |b|)` where `dist`
is the edit distance with substitutions costing 2; equivalently
`2·lcs(a,b) / (|a| + |b|)`, and `1` when both strings are empty. -/
def levSimilarity (a b : LC) : ℚ :=
  if a.length + b.length = 0 then 1
  else (2 * lcs a b : ℚ) / ((a.length + b.length : Nat) : ℚ)

/-- `[t.canonical] + t.aliases` (line 61). -/
def termTargets (t : Term) : List LC := t.canonical :: t.aliases

/-- One step of the best-score scan (lines 62–65): on a strict improvement
record the new score and the owning term's canonical. -/
def stepTarget (cand : LC) (canon : LC) (st : ℚ × Option LC) (a : LC) : ℚ × Option LC :=
  let s := levSimilarity cand (lower a)
  if st.1 < s then (s, some canon) else st

/-- The `best_score` / `best_to` scan of lines 58–65: fold over the terms in
load order, and within each term over `[canonical] + aliases`. -/
def fuzzyBest (terms : List Term) (cand : LC) : ℚ × Option LC :=
  terms.foldl (fun st t => (termTargets t).foldl (stepTarget cand t.canonical) st) (0, none)

/-- Best similarity this one term offers for the candidate. -/
def termBest (t : Term) (cand : LC) : ℚ :=
  ((termTargets t).map (fun a => levSimilarity cand (lower a))).foldr max 0

/-- Best similarity over the whole dictionary for the candidate. -/
def maxScore (terms : List Term) (cand : LC) : ℚ :=
  (terms.map (fun t => termBest t cand)).foldr max 0

/-- Python truthiness of `best_to` (line 67: `if best_to and ...`):
`None` and the empty string are falsy. -/
def truthy : Option LC → Bool
  | none => false
  | some s => !s.isEmpty

/-- The acceptance test `best_to and best_score >= self.threshold` (line 67). -/
def fuzzyAccept (thr : ℚ) (st : ℚ × Option LC) : Bool :=
  truthy st.2 && decide (thr ≤ st.1)

/-- Window sizes tried at a position: `range(min(i+3, len), i, -1)` visits
`j = i + w` for `w = min 3 remaining, …, 1` (line 50). -/
def windowSizes (n : Nat) : List Nat := ((List.range (min 3 n)).reverse).map (fun k => k + 1)

/-- One candidate window of `w` tokens (lines 51–71): skip when the joined
candidate is shorter than 4 characters or is itself a direct-table key;
otherwise accept when the best score passes `fuzzyAccept`. -/
def tryWindow (direct : List (LC × LC)) (terms : List Term) (thr : ℚ)
    (rest : List LC) (w : Nat) : Option (Nat × LC × ℚ × LC) :=
  let cand := joinTok (rest.take w)
  if cand.length < 4 then none
  else if (direct.find? (fun p => p.1 == lower cand)).isSome then none
  else
    let st := fuzzyBest terms (lower cand)
    if fuzzyAccept thr st then
      match st.2 with
      | some t => some (w, t, st.1, cand)
      | none => none
    else none

/-- First accepted window at this position, longest first (the inner `for j`
loop with its `break`). -/
def tryWindows (direct : List (LC × LC)) (terms : List Term) (thr : ℚ)
    (rest : List LC) : Option (Nat × LC × ℚ × LC) :=
  (windowSizes rest.length).findSome? (tryWindow direct terms thr rest)

/-- Pass 2 of `TermCorrector.correct` (lines 46–72): `done` holds the tokens
already passed (`tokens[:i]`), `rest` the tokens from position `i` on.  On a
replacement the window is spliced to the single canonical token and the scan
advances one position (`i += 1` in both branches of line 72); the fuel is the
initial token count, which bounds the number of steps since every step
consumes at least one token of `rest`. -/
def pass2go (direct : List (LC × LC)) (terms : List Term) (thr : ℚ) :
    Nat → List LC → List LC → List Change → List LC × List Change
  | 0, done, rest, ch => (done ++ rest, ch)
  | _ + 1, done, [], ch => (done, ch)
  | fuel + 1, done, tk :: rest2, ch =>
    match tryWindows direct terms thr (tk :: rest2) with
    | some (w, t, sc, cand) =>
      pass2go direct terms thr fuel (done ++ [t]) ((tk :: rest2).drop w) (ch ++ [⟨cand, t, sc⟩])
    | none => pass2go direct terms thr fuel (done ++ [tk]) rest2 ch

/-- `TermCorrector.correct` (lines 33–74) for an engine built from `terms`
with threshold `thr` (source default 0.86): direct pass over the items sorted
by descending key length, then the fuzzy sliding-window pass, then
the final token joining of line 74. -/
def correct (terms : List Term) (thr : ℚ) (text : LC) : LC × List Change :=
  let direct := buildDirect terms
  let p1 := pass1 (sortDesc direct) text []
  let tokens := splitWs p1.1
  let p2 := pass2go direct terms thr tokens.length [] tokens p1.2
  (joinTok p2.1, p2.2)

/-! ## Structuring extractor (`src/core/structuring.py`) -/

/-- `m.get(k, d)` on an association list (Python dict `.get`). -/
def lookupD (m : List (LC × LC)) (k d : LC) : LC :=
  ((m.find? (fun p => p.1 == k)).map (fun p => p.2)).getD d

/-- `self.key_to_canonical.get(key, key)` (lines 12/16/20). -/
def canonOf (k2c : List (LC × LC)) (k : LC) : LC := lookupD k2c k k

/-- `self.categories.get(name, [])` (lines 11/15/19). -/
def getCat (cats : List (LC × List LC)) (name : LC) : List LC :=
  ((cats.find? (fun p => p.1 == name)).map (fun p => p.2)).getD []

/-- One category loop of `Structurer.extract`: fold over the keys in listed
order, overwriting the slot whenever the key's canonical occurs in the text
(so the last match in iteration order wins). -/
def catFold (k2c : List (LC × LC)) (text : LC) (keys : List LC) : Option LC :=
  keys.foldl
    (fun acc k => if containsSub text (canonOf k2c k) then some (canonOf k2c k) else acc)
    none

structure SRecord where
  location : Option LC
  lesion : Option LC
  feature : Option LC
  notes : LC
deriving DecidableEq

def locationS : LC := "location".data
def lesionS : LC := "lesion".data
def featureS : LC := "feature".data

/-- The fixed provenance note set at line 23. -/
def notesFixed : LC := "Auto-extracted (PoC)".data

/-- `Structurer.extract` (lines 9–24). -/
def extract (cats : List (LC × List LC)) (k2c : List (LC × LC)) (text : LC) : SRecord :=
  { location := catFold k2c text (getCat cats locationS)
  , lesion := catFold k2c text (getCat cats lesionS)
  , feature := catFold k2c text (getCat cats featureS)
  , notes := notesFixed }

/-! ## Dictionary file loading (`TermCorrector.load`, lines 26–31) -/

/-- Minimal JSON value model for the dictionary file. -/
inductive J where
  | str (s : LC)
  | arr (xs : List J)
  | obj (kvs : List (LC × J))

/-- `j[k]` on an object; `none` models the `KeyError`/`TypeError` raised when
the key is absent or the value is not an object. -/
def jget (j : J) (k : LC) : Option J :=
  match j with
  | J.obj kvs => (kvs.find? (fun p => p.1 == k)).map (fun p => p.2)
  | _ => none

/-- `j.get(k, d)` — lookup with default. -/
def jgetD (j : J) (k : LC) (d : J) : J := (jget j k).getD d

def termsS : LC := "terms".data
def keyS : LC := "key".data
def canonicalS : LC := "canonical".data
def aliasesS : LC := "aliases".data
def categoriesS : LC := "categories".data

/-- The list comprehension of line 30: fails as a whole if any element fails. -/
def mapOpt {α : Type} (f : J → Option α) : List J → Option (List α)
  | [] => some []
  | x :: xs =>
    match f x, mapOpt f xs with
    | some y, some ys => some (y :: ys)
    | _, _ => none

/-- One element of the comprehension:
`Term(key=x["key"], canonical=x["canonical"], aliases=x.get("aliases", []))` —
`key` and `canonical` are mandatory (KeyError when absent), `aliases`
defaults to the empty list.  Field values are kept as raw JSON values, as the
Python constructor performs no type check. -/
def parseTermJ (x : J) : Option (J × J × J) :=
  match jget x keyS, jget x canonicalS with
  | some k, some c => some (k, c, jgetD x aliasesS (J.arr []))
  | _, _ => none

/-- `TermCorrector.load` on an already-parsed document (lines 30–31):
`obj["terms"]` must exist and be a sequence (Python iterates it; a
non-sequence raises), each entry needs `key` and `canonical`, and
`categories` defaults to the empty mapping via `obj.get("categories", {})`. -/
def loadTerms (doc : J) : Option (List (J × J × J) × J) :=
  match jget doc termsS with
  | some (J.arr xs) => (mapOpt parseTermJ xs).map (fun ts => (ts, jgetD doc categoriesS (J.obj [])))
  | _ => none

/-! ## Buffering / gating loop (`stt_worker_main`, lines 146–162) -/

abbrev Chunk := List ℚ

/-- `sum(len(x) for x in buffer)` (line 147). -/
def totalSamples (l : List Chunk) : Nat := (l.map List.length).sum

/-- `np.mean(np.square(audio))` — the squared RMS.  On the empty buffer this
is `0/0 = 0` in `ℚ`, matching the source's explicit `0.0` fallback for empty
audio (line 154). -/
def meanSq (a : List ℚ) : ℚ := ((a.map (fun x => x ^ 2)).sum) / ((a.length : Nat) : ℚ)

/-- `np.max(np.abs(audio))` with the source's `0.0` fallback for empty audio
(line 160); on a nonempty buffer `foldr max 0` equals the true maximum since
every `|x|` is nonnegative. -/
def peak (a : List ℚ) : ℚ := (a.map (fun x => |x|)).foldr max 0

/-- Lines 160–162: `if peak > 0: audio = audio / peak`. -/
def normalizeAudio (a : List ℚ) : List ℚ :=
  if 0 < peak a then a.map (fun x => x / peak a) else a

/-- Lines 146–151 in isolation: append the chunk; below `target_samples`
keep accumulating, otherwise concatenate the whole buffer and clear it. -/
def gateStep (target : Nat) (buf : List Chunk) (c : Chunk) : List Chunk × Option (List ℚ) :=
  let buf2 := buf ++ [c]
  if totalSamples buf2 < target then (buf2, none) else ([], some buf2.flatten)

/-- The gating loop run over a pushed chunk sequence, collecting the emitted
concatenated buffers. -/
def gateRun (target : Nat) (chunks : List Chunk) : List Chunk × List (List ℚ) :=
  chunks.foldl
    (fun st c =>
      let r := gateStep target st.1 c
      (r.1, st.2 ++ r.2.toList))
    ([], [])

/-- Worker messages relevant to gating (the `out_q.put` dicts).  The
"too quiet" status carries the reported energy (kept squared, see
`loopStep`); "Transcribing..." is the status emitted on the pass path. -/
inductive Msg where
  | statusTooQuiet (rmsSq : ℚ)
  | statusTranscribing
  | errorMsg (s : LC)
  | textMsg (s : LC)
deriving DecidableEq

def Msg.isStatus : Msg → Bool
  | statusTooQuiet _ => true
  | statusTranscribing => true
  | _ => false

def Msg.isError : Msg → Bool
  | errorMsg _ => true
  | _ => false

/-- One full loop iteration of lines 146–162 after a chunk arrives: append;
if below target keep accumulating; otherwise concatenate, **clear the buffer
before the energy gate**, then either discard with a "too quiet" status or
normalize and hand the utterance to transcription.  The source compares
`sqrt(mean(square(audio))) < energy_threshold`; for `0 ≤ thr` this is
equivalent to the exact rational comparison `meanSq audio < thr ^ 2` used
here (see `meanSq_lt_sq_iff_sqrt_lt`). -/
def loopStep (target : Nat) (thr : ℚ) (buf : List Chunk) (c : Chunk) :
    List Chunk × List Msg × Option (List ℚ) :=
  let buf2 := buf ++ [c]
  if totalSamples buf2 < target then (buf2, [], none)
  else
    let audio := buf2.flatten
    if meanSq audio < thr ^ 2 then ([], [Msg.statusTooQuiet (meanSq audio)], none)
    else ([], [Msg.statusTranscribing], some (normalizeAudio audio))

/-- A duplicate-key example term set (two Terms sharing key "k"). -/
def dupTerms : List Term := [⟨"k".data, "A".data, []⟩, ⟨"k".data, "B".data, []⟩]

/-- A term set whose two Terms share the alias "x". -/
def dupAliasTerms : List Term := [⟨"k1".data, "A".data, ["x".data]⟩, ⟨"k2".data, "B".data, ["x".data]⟩]

/-- A dictionary document whose single term entry has `key` and `canonical`
but no `aliases`, and which has no `categories`. -/
def doc0 : J := J.obj [(termsS, J.arr [J.obj [(keyS, J.str ("k".data)), (canonicalS, J.str ("c".data))]])]

/-! ## Theorems -/

section
attribute [local semireducible] Rat.mul Rat.inv Rat.add Rat.sub

theorem totalSamples_append (a b : List Chunk) :
    totalSamples (a ++ b) = totalSamples a + totalSamples b := by
  simp [totalSamples]

theorem totalSamples_singleton (c : Chunk) : totalSamples [c] = c.length := by
  simp [totalSamples]

theorem totalSamples_cons (c : Chunk) (cs : List Chunk) :
    totalSamples (c :: cs) = c.length + totalSamples cs := by
  simp [totalSamples]

/-- C2: the claim (and §7 of the spec) requires construction from a term set
with duplicate keys to fail with no partial index; the code instead builds the
engine and lets the later Term overwrite the earlier entry, both in
`key_to_canonical` and in the direct table. -/
theorem duplicate_key_overwrites :
    buildK2C dupTerms = [("k".data, "B".data)] ∧
    buildDirect dupAliasTerms =
      [("a".data, "A".data), ("x".data, "B".data), ("b".data, "B".data)] := by
  decide

theorem gateRun_below (target : Nat) (chunks : List Chunk) :
    ∀ (b : List Chunk) (e : List (List ℚ)), totalSamples (b ++ chunks) < target →
      chunks.foldl (fun st c => let r := gateStep target st.1 c; (r.1, st.2 ++ r.2.toList)) (b, e)
        = (b ++ chunks, e) := by
  induction chunks with
  | nil => intro b e _; simp
  | cons c cs ih =>
    intro b e h
    have hc : totalSamples (b ++ [c]) < target := by
      have h2 : totalSamples (b ++ c :: cs) = totalSamples (b ++ [c]) + totalSamples cs := by
        rw [totalSamples_append, totalSamples_append, totalSamples_cons,
          totalSamples_singleton]
        omega
      omega
    have hg : gateStep target b c = (b ++ [c], none) := by
      simp [gateStep, hc]
    simp only [List.foldl_cons, hg]
    have := ih (b ++ [c]) e (by simpa using h)
    simpa using this

/-- C3: while the buffered total stays strictly below `target_samples` the
gating loop emits nothing and keeps every pushed chunk in order; the first
chunk bringing the total to at least `target_samples` produces exactly one
concatenated buffer and clears the accumulator. -/
theorem gating_emits_at_target (target : Nat) (chunks : List Chunk)
    (h : totalSamples chunks < target) :
    gateRun target chunks = (chunks, []) ∧
    ∀ c : Chunk, target ≤ totalSamples chunks + c.length →
      gateRun target (chunks ++ [c]) = ([], [(chunks ++ [c]).flatten]) := by
  have h0 : chunks.foldl (fun st c => let r := gateStep target st.1 c; (r.1, st.2 ++ r.2.toList))
      ([], []) = (chunks, []) := by
    simpa using gateRun_below target chunks [] [] (by simpa using h)
  constructor
  · simpa [gateRun] using h0
  · intro c hc
    unfold gateRun
    rw [List.foldl_append, h0]
    have hn : ¬ totalSamples (chunks ++ [c]) < target := by
      rw [totalSamples_append, totalSamples_singleton]
      omega
    simp [gateStep, hn]

theorem gating_emits_at_target_witness :
    gateRun 3 [[0, 0]] = ([[0, 0]], []) ∧
    gateRun 3 [[0, 0], [5]] = ([], [[0, 0, 5]]) := by
  refine ⟨(gating_emits_at_target 3 [[0, 0]] (by decide)).1, ?_⟩
  have h := (gating_emits_at_target 3 [[0, 0]] (by decide)).2 [5] (by decide)
  simpa using h

theorem find?_append_lc {α : Type} (p : α → Bool) :
    ∀ (l1 l2 : List α), (l1 ++ l2).find? p = ((l1.find? p).orElse (fun _ => l2.find? p)) := by
  intro l1 l2
  induction l1 with
  | nil => simp
  | cons a l ih =>
    by_cases hp : p a
    · simp [List.find?_cons_of_pos _ hp, Option.orElse]
    · have hp2 : p a = false := by simpa using hp
      simp [List.find?_cons_of_neg, hp2, ih]

theorem catFold_go (k2c : List (LC × LC)) (text : LC) :
    ∀ (keys : List LC) (init : Option LC),
      keys.foldl
        (fun acc k => if containsSub text (canonOf k2c k) then some (canonOf k2c k) else acc)
        init
      = ((keys.reverse.find? (fun k => containsSub text (canonOf k2c k))).elim init
          (fun k => some (canonOf k2c k))) := by
  intro keys
  induction keys with
  | nil => intro init; simp
  | cons k ks ih =>
    intro init
    simp only [List.foldl_cons, List.reverse_cons]
    rw [ih, find?_append_lc]
    cases hf : ks.reverse.find? (fun k => containsSub text (canonOf k2c k)) with
    | some k2 => simp [Option.orElse]
    | none =>
      by_cases hp : containsSub text (canonOf k2c k)
      · simp [Option.orElse, List.find?_cons_of_pos _ hp, hp]
      · have hp2 : containsSub text (canonOf k2c k) = false := by simpa using hp
        simp [Option.orElse, List.find?_cons_of_neg, hp2]

/-- C7: per category (location, lesion, feature) `Structurer.extract` reports
the canonical of the last key in the category's listed order whose canonical
occurs in the text (last-found wins, expressed here as the first match of the
reversed key list), or nothing when none occurs; `notes` is always the fixed
provenance string. -/
theorem extract_last_match_wins (cats : List (LC × List LC)) (k2c : List (LC × LC)) (text : LC) :
    (extract cats k2c text).location
      = Option.map (canonOf k2c)
          (((getCat cats locationS).reverse).find? (fun k => containsSub text (canonOf k2c k))) ∧
    (extract cats k2c text).lesion
      = Option.map (canonOf k2c)
          (((getCat cats lesionS).reverse).find? (fun k => containsSub text (canonOf k2c k))) ∧
    (extract cats k2c text).feature
      = Option.map (canonOf k2c)
          (((getCat cats featureS).reverse).find? (fun k => containsSub text (canonOf k2c k))) ∧
    (extract cats k2c text).notes = notesFixed := by
  refine ⟨?_, ?_, ?_, rfl⟩ <;>
  · show catFold k2c text _ = _
    rw [catFold, catFold_go]
    cases (List.find? _ _) <;> simp

theorem meanSq_nonneg (a : List ℚ) : 0 ≤ meanSq a := by
  unfold meanSq
  apply div_nonneg
  · apply List.sum_nonneg
    intro x hx
    obtain ⟨y, _, rfl⟩ := List.mem_map.mp hx
    positivity
  · positivity

/-- The source's energy gate compares `sqrt(mean(square(audio))) < thr`;
for a positive threshold this is the exact comparison `meanSq a < thr ^ 2`. -/
theorem meanSq_lt_sq_iff_sqrt_lt (a : List ℚ) (thr : ℚ) (h : 0 < thr) :
    Real.sqrt ((meanSq a : ℚ) : ℝ) < (thr : ℝ) ↔ meanSq a < thr ^ 2 := by
  rw [Real.sqrt_lt' (by exact_mod_cast h)]
  constructor <;> intro h2 <;> exact_mod_cast h2

/-- C4: when the accumulated buffer reaches `target_samples` but its RMS is
below `energy_threshold`, the loop discards the audio, reports a "too quiet"
Status (not an Error) and yields no utterance; and whenever the target is
reached the accumulator is cleared before the energy test (for every
threshold the new buffer is empty), so gating never re-tests the same audio. -/
theorem quiet_buffer_discarded (target : Nat) (thr : ℚ) (buf : List Chunk) (c : Chunk)
    (h0 : 0 < thr)
    (h1 : target ≤ totalSamples (buf ++ [c]))
    (h2 : Real.sqrt ((meanSq ((buf ++ [c]).flatten) : ℚ) : ℝ) < (thr : ℝ)) :
    loopStep target thr buf c
      = ([], [Msg.statusTooQuiet (meanSq ((buf ++ [c]).flatten))], none) ∧
    (Msg.statusTooQuiet (meanSq ((buf ++ [c]).flatten))).isStatus = true ∧
    (Msg.statusTooQuiet (meanSq ((buf ++ [c]).flatten))).isError = false ∧
    ∀ thr2 : ℚ, (loopStep target thr2 buf c).1 = [] := by
  have hq : meanSq ((buf ++ [c]).flatten) < thr ^ 2 :=
    (meanSq_lt_sq_iff_sqrt_lt _ _ h0).mp h2
  have hn : ¬ totalSamples (buf ++ [c]) < target := by omega
  refine ⟨?_, rfl, rfl, ?_⟩
  · simp only [loopStep, if_neg hn, if_pos hq]
  · intro thr2
    simp only [loopStep, if_neg hn]
    split <;> rfl

theorem quiet_buffer_discarded_witness :
    loopStep 1 1 [] [(0 : ℚ)]
      = ([], [Msg.statusTooQuiet (meanSq ((([] : List Chunk) ++ [[(0 : ℚ)]]).flatten))], none) := by
  have hms : meanSq ((([] : List Chunk) ++ [[(0 : ℚ)]]).flatten) = 0 := by decide
  have h := quiet_buffer_discarded 1 1 [] [(0 : ℚ)] (by norm_num) (by decide)
    (by rw [hms]; simp [Real.sqrt_zero])
  exact h.1

theorem foldr_max_nonneg (l : List ℚ) : 0 ≤ l.foldr max 0 := by
  induction l with
  | nil => simp
  | cons x xs ih => simp only [List.foldr_cons]; exact le_trans ih (le_max_right _ _)

theorem peak_nonneg (a : List ℚ) : 0 ≤ peak a := foldr_max_nonneg _

theorem foldr_max_div (p : ℚ) (hp : 0 < p) (l : List ℚ) :
    (l.map (fun x => x / p)).foldr max 0 = (l.foldr max 0) / p := by
  induction l with
  | nil => simp
  | cons x xs ih =>
    simp only [List.map_cons, List.foldr_cons, ih]
    rcases le_total x (xs.foldr max 0) with h | h
    · rw [max_eq_right h, max_eq_right ((div_le_div_iff_of_pos_right hp).mpr h)]
    · rw [max_eq_left h, max_eq_left ((div_le_div_iff_of_pos_right hp).mpr h)]

theorem peak_map_div (a : List ℚ) (p : ℚ) (hp : 0 < p) :
    peak (a.map (fun x => x / p)) = peak a / p := by
  unfold peak
  rw [List.map_map]
  have h1 : ((fun x => |x|) ∘ fun x => x / p) = fun x => |x| / p := by
    funext x
    simp [abs_div, abs_of_pos hp]
  rw [h1, show (fun x : ℚ => |x| / p) = ((fun y => y / p) ∘ fun x => |x|) from rfl,
    ← List.map_map, foldr_max_div p hp]

theorem sum_sq_map_div (a : List ℚ) (p : ℚ) :
    ((a.map (fun x => x / p)).map (fun x => x ^ 2)).sum = (a.map (fun x => x ^ 2)).sum / p ^ 2 := by
  induction a with
  | nil => simp
  | cons x xs ih =>
    simp only [List.map_cons, List.sum_cons, ih, div_pow]
    ring

theorem meanSq_map_div (a : List ℚ) (p : ℚ) :
    meanSq (a.map (fun x => x / p)) = meanSq a / p ^ 2 := by
  unfold meanSq
  rw [sum_sq_map_div, List.length_map]
  ring

/-- C9: a gated buffer with positive peak is scaled samplewise by `1/peak`,
bringing its maximum absolute amplitude to exactly 1 and dividing its RMS by
the peak; a buffer with peak 0 passes through unscaled. -/
theorem peak_normalization (a : List ℚ) :
    (0 < peak a →
      normalizeAudio a = a.map (fun x => x / peak a) ∧
      peak (normalizeAudio a) = 1 ∧
      Real.sqrt ((meanSq (normalizeAudio a) : ℚ) : ℝ)
        = Real.sqrt ((meanSq a : ℚ) : ℝ) / ((peak a : ℚ) : ℝ)) ∧
    (peak a = 0 → normalizeAudio a = a) := by
  constructor
  · intro hp
    have hmap : normalizeAudio a = a.map (fun x => x / peak a) := by
      simp [normalizeAudio, hp]
    refine ⟨hmap, ?_, ?_⟩
    · rw [hmap, peak_map_div a _ hp, div_self (ne_of_gt hp)]
    · rw [hmap, meanSq_map_div]
      have hcast : ((meanSq a / peak a ^ 2 : ℚ) : ℝ) = ((meanSq a : ℚ) : ℝ) / ((peak a : ℚ) : ℝ) ^ 2 := by
        push_cast
        ring
      rw [hcast, Real.sqrt_div (by exact_mod_cast meanSq_nonneg a),
        Real.sqrt_sq (by exact_mod_cast peak_nonneg a)]
  · intro hp
    simp [normalizeAudio, hp]

theorem peak_normalization_witness :
    peak [(1 : ℚ)/2, -(1 : ℚ)/4] = 1/2 ∧
    normalizeAudio [(1 : ℚ)/2, -(1 : ℚ)/4] = [1, -(1 : ℚ)/2] ∧
    peak (normalizeAudio [(1 : ℚ)/2, -(1 : ℚ)/4]) = 1 ∧
    normalizeAudio [(0 : ℚ)] = [(0 : ℚ)] := by
  have h1 := (peak_normalization [(1 : ℚ)/2, -(1 : ℚ)/4]).1 (by decide)
  have h2 := (peak_normalization [(0 : ℚ)]).2 (by decide)
  refine ⟨by decide, ?_, h1.2.1, h2⟩
  rw [h1.1]
  decide

theorem levSimilarity_nonneg (a b : LC) : 0 ≤ levSimilarity a b := by
  unfold levSimilarity
  split
  · norm_num
  · apply div_nonneg
    · positivity
    · positivity

theorem termBest_nonneg (t : Term) (cand : LC) : 0 ≤ termBest t cand :=
  foldr_max_nonneg _

theorem maxScore_nonneg (terms : List Term) (cand : LC) : 0 ≤ maxScore terms cand :=
  foldr_max_nonneg _

theorem foldl_stepTarget (cand canon : LC) :
    ∀ (L : List LC) (b : ℚ) (acc : Option LC), 0 ≤ b →
      L.foldl (stepTarget cand canon) (b, acc) =
        if (L.map (fun a => levSimilarity cand (lower a))).foldr max 0 ≤ b then (b, acc)
        else ((L.map (fun a => levSimilarity cand (lower a))).foldr max 0, some canon) := by
  intro L
  induction L with
  | nil =>
    intro b acc hb
    simp only [List.foldl_nil, List.map_nil, List.foldr_nil, if_pos hb]
  | cons a L ih =>
    intro b acc hb
    simp only [List.foldl_cons, List.map_cons, List.foldr_cons]
    set s := levSimilarity cand (lower a) with hs
    set m := (L.map (fun a => levSimilarity cand (lower a))).foldr max 0 with hm
    by_cases h1 : b < s
    · have hstep : stepTarget cand canon (b, acc) a = (s, some canon) := by
        simp only [stepTarget, ← hs]
        rw [if_pos h1]
      rw [hstep, ih s (some canon) (le_trans hb (le_of_lt h1))]
      have hnot : ¬ (max s m ≤ b) :=
        fun hc => absurd (le_trans (le_max_left s m) hc) (not_le.mpr h1)
      by_cases h2 : m ≤ s
      · rw [if_pos h2, if_neg hnot, max_eq_left h2]
      · push_neg at h2
        rw [if_neg (not_le.mpr h2), if_neg hnot, max_eq_right (le_of_lt h2)]
    · push_neg at h1
      have hstep : stepTarget cand canon (b, acc) a = (b, acc) := by
        simp only [stepTarget, ← hs]
        rw [if_neg (not_lt.mpr h1)]
      rw [hstep, ih b acc hb]
      by_cases h2 : m ≤ b
      · rw [if_pos h2, if_pos (max_le h1 h2)]
      · push_neg at h2
        have hmx : max s m = m := max_eq_right (le_trans h1 (le_of_lt h2))
        rw [if_neg (not_le.mpr h2), if_neg (by rw [hmx]; exact not_le.mpr h2), hmx]

theorem maxScore_cons (t : Term) (ts : List Term) (cand : LC) :
    maxScore (t :: ts) cand = max (termBest t cand) (maxScore ts cand) := by
  simp [maxScore]

theorem fuzzyBest_go (cand : LC) :
    ∀ (terms : List Term) (b : ℚ) (acc : Option LC), 0 ≤ b →
      terms.foldl (fun st t => (termTargets t).foldl (stepTarget cand t.canonical) st) (b, acc) =
        if maxScore terms cand ≤ b then (b, acc)
        else (maxScore terms cand,
          Option.map Term.canonical
            (terms.find? (fun t => decide (maxScore terms cand ≤ termBest t cand)))) := by
  intro terms
  induction terms with
  | nil =>
    intro b acc hb
    simp only [List.foldl_nil, maxScore, List.map_nil, List.foldr_nil, if_pos hb]
  | cons t ts ih =>
    intro b acc hb
    have hM := maxScore_cons t ts cand
    simp only [List.foldl_cons]
    rw [show (termTargets t).foldl (stepTarget cand t.canonical) (b, acc)
        = if termBest t cand ≤ b then (b, acc) else (termBest t cand, some t.canonical) from by
      rw [foldl_stepTarget cand t.canonical (termTargets t) b acc hb]; rfl]
    by_cases h1 : termBest t cand ≤ b
    · rw [if_pos h1, ih b acc hb]
      by_cases h2 : maxScore ts cand ≤ b
      · rw [if_pos h2, if_pos (by rw [hM]; exact max_le h1 h2)]
      · push_neg at h2
        have hmax : maxScore (t :: ts) cand = maxScore ts cand := by
          rw [hM]; exact max_eq_right (le_trans h1 (le_of_lt h2))
        rw [if_neg (not_le.mpr h2), if_neg (by rw [hmax]; exact not_le.mpr h2), hmax,
          List.find?_cons_of_neg]
        simpa using not_le.mpr (lt_of_le_of_lt h1 h2)
    · push_neg at h1
      rw [if_neg (not_le.mpr h1), ih (termBest t cand) (some t.canonical)
        (le_trans hb (le_of_lt h1))]
      by_cases h2 : maxScore ts cand ≤ termBest t cand
      · have hmax : maxScore (t :: ts) cand = termBest t cand := by
          rw [hM]; exact max_eq_left h2
        rw [if_pos h2, if_neg (by rw [hmax]; exact not_le.mpr h1), hmax,
          List.find?_cons_of_pos]
        · rfl
        · exact decide_eq_true le_rfl
      · push_neg at h2
        have hmax : maxScore (t :: ts) cand = maxScore ts cand := by
          rw [hM]; exact max_eq_right (le_of_lt h2)
        rw [if_neg (not_le.mpr h2), if_neg (by rw [hmax]; exact not_le.mpr (lt_trans h1 h2)),
          hmax, List.find?_cons_of_neg]
        simpa using not_le.mpr h2

/-- C6: on a fuzzy tie the engine is deterministic: the reported best score is
the dictionary-wide maximum, and `best_to` is the canonical of the *first*
Term in load order achieving that maximum (within a Term the canonical is
tried before its aliases, and `best_to` is the owning Term's canonical either
way), so output is reproducible for a fixed dictionary and input. -/
theorem fuzzy_tiebreak_first_term (terms : List Term) (cand : LC)
    (h : 0 < maxScore terms cand) :
    fuzzyBest terms cand =
      (maxScore terms cand,
       Option.map Term.canonical
         (terms.find? (fun t => decide (maxScore terms cand ≤ termBest t cand)))) := by
  unfold fuzzyBest
  rw [fuzzyBest_go cand terms 0 none le_rfl, if_neg (not_le.mpr h)]

theorem fuzzy_tiebreak_first_term_witness :
    fuzzyBest [⟨"a".data, "abcd".data, []⟩, ⟨"b".data, "abdc".data, []⟩] ("abc".data)
      = (6/7, some ("abcd".data)) := by
  have h := fuzzy_tiebreak_first_term
    [⟨"a".data, "abcd".data, []⟩, ⟨"b".data, "abdc".data, []⟩] ("abc".data) (by decide)
  rw [h]
  decide

theorem exists_find?_maxScore (cand : LC) :
    ∀ (terms : List Term), 0 < maxScore terms cand →
      ∃ t, terms.find? (fun t => decide (maxScore terms cand ≤ termBest t cand)) = some t := by
  intro terms
  induction terms with
  | nil =>
    intro h
    simp [maxScore] at h
  | cons t ts ih =>
    intro h
    have hM := maxScore_cons t ts cand
    by_cases h1 : maxScore (t :: ts) cand ≤ termBest t cand
    · exact ⟨t, List.find?_cons_of_pos _ (decide_eq_true h1)⟩
    · push_neg at h1
      have hmax : maxScore (t :: ts) cand = maxScore ts cand := by
        rw [hM] at h1 ⊢
        rcases max_cases (termBest t cand) (maxScore ts cand) with ⟨he, _⟩ | ⟨he, _⟩
        · rw [he] at h1; exact absurd le_rfl (not_le.mpr h1)
        · exact he
      obtain ⟨t2, ht2⟩ := ih (by rw [← hmax]; exact h)
      refine ⟨t2, ?_⟩
      rw [List.find?_cons_of_neg _ (by simpa using not_le.mpr h1)]
      simp only [hmax]
      exact ht2

theorem isPrefixOf_self (l : LC) : l.isPrefixOf l = true := by
  induction l with
  | nil => rfl
  | cons c t ih => simp [List.isPrefixOf, ih]

theorem containsSub_self (s : LC) : containsSub s s = true := by
  cases s with
  | nil => rfl
  | cons c t => simp [containsSub, findSub, findSubAux, isPrefixOf_self]

theorem mem_insertDesc (p q : LC × LC) (l : List (LC × LC)) :
    q ∈ insertDesc p l ↔ q = p ∨ q ∈ l := by
  induction l with
  | nil => simp [insertDesc]
  | cons r rs ih =>
    simp only [insertDesc]
    split
    · simp [or_comm, or_assoc, or_left_comm]
    · simp [ih]
      tauto

theorem mem_sortDesc (l : List (LC × LC)) (q : LC × LC) : q ∈ sortDesc l ↔ q ∈ l := by
  induction l with
  | nil => simp [sortDesc]
  | cons p ps ih =>
    show q ∈ insertDesc p (sortDesc ps) ↔ _
    rw [mem_insertDesc, ih]
    simp

theorem pass1_skip (entries : List (LC × LC)) (raw : LC) (ch : List Change)
    (h : ∀ p ∈ entries, (!p.1.isEmpty && containsSub (lower raw) p.1) = false) :
    pass1 entries raw ch = (raw, ch) := by
  induction entries with
  | nil => rfl
  | cons p ps ih =>
    obtain ⟨al, canon⟩ := p
    have h0 : (!al.isEmpty && containsSub (lower raw) al) = false :=
      h (al, canon) (List.mem_cons_self _ _)
    simp only [pass1, h0, Bool.false_eq_true, if_false]
    exact ih (fun p hp => h p (List.mem_cons_of_mem _ hp))

theorem joinTok_singleton (x : LC) : joinTok [x] = x := by
  simp [joinTok]

theorem lower_length (s : LC) : (lower s).length = s.length := by
  simp [lower]

/-- C5: for a single-token text long enough for the fuzzy pass, not hitting
the direct table (no direct key occurs in its lowered form) and a
dictionary of nonempty canonicals: when the best similarity meets the
threshold — equality included — `correct` replaces the token with the
canonical of the first best-scoring Term and records one Correction carrying
that score; when the best similarity is strictly below the threshold the
token is left as-is and no Correction is recorded. -/
theorem fuzzy_threshold_boundary (terms : List Term) (thr : ℚ) (w : LC)
    (hsplit : splitWs w = [w])
    (hlen : 4 ≤ w.length)
    (hdirect : ∀ p ∈ buildDirect terms, (!p.1.isEmpty && containsSub (lower w) p.1) = false)
    (hcanon : ∀ t ∈ terms, t.canonical.isEmpty = false) :
    (thr ≤ maxScore terms (lower w) → 0 < maxScore terms (lower w) →
      ∃ t, terms.find?
            (fun t => decide (maxScore terms (lower w) ≤ termBest t (lower w))) = some t ∧
        correct terms thr w
          = (t.canonical, [⟨w, t.canonical, maxScore terms (lower w)⟩])) ∧
    (maxScore terms (lower w) < thr → correct terms thr w = (w, [])) := by
  have hp1 : pass1 (sortDesc (buildDirect terms)) w [] = (w, []) :=
    pass1_skip _ _ _ (fun p hp => hdirect p ((mem_sortDesc _ _).mp hp))
  have hc : correct terms thr w
      = (joinTok (pass2go (buildDirect terms) terms thr ([w] : List LC).length [] [w] []).1,
         (pass2go (buildDirect terms) terms thr ([w] : List LC).length [] [w] []).2) := by
    simp only [correct, hp1, hsplit]
  have hcand : joinTok (([w] : List LC).take 1) = w := by
    simp [joinTok]
  have h4 : ¬ ((joinTok (([w] : List LC).take 1)).length < 4) := by
    rw [hcand]
    omega
  have hfind : (buildDirect terms).find? (fun p => p.1 == lower w) = none := by
    rw [List.find?_eq_none]
    intro p hp hbeq
    have heq : p.1 = lower w := by simpa using hbeq
    have h1 := hdirect p hp
    have hne : (lower w).isEmpty = false := by
      cases hwl : lower w with
      | nil =>
        have := lower_length w
        rw [hwl] at this
        simp at this
        omega
      | cons c t => rfl
    rw [heq, hne, containsSub_self] at h1
    simp at h1
  have hws : windowSizes (([w] : List LC).length) = [1] := rfl
  have h4' : ¬ (w.length < 4) := by omega
  constructor
  · intro h1 h2
    obtain ⟨t, ht⟩ := exists_find?_maxScore (lower w) terms h2
    have htm : t ∈ terms := List.mem_of_find?_eq_some ht
    have hfb : fuzzyBest terms (lower w) = (maxScore terms (lower w), some t.canonical) := by
      unfold fuzzyBest
      rw [fuzzyBest_go (lower w) terms 0 none le_rfl, if_neg (not_le.mpr h2), ht]
      rfl
    have hacc : fuzzyAccept thr (maxScore terms (lower w), some t.canonical) = true := by
      simp [fuzzyAccept, truthy, hcanon t htm, h1]
    have htw1 : tryWindow (buildDirect terms) terms thr [w] 1
        = some (1, t.canonical, maxScore terms (lower w), w) := by
      simp only [tryWindow, hcand, if_neg h4', hfind, Option.isSome_none,
        Bool.false_eq_true, if_false, hfb, hacc, if_true]
    have htws : tryWindows (buildDirect terms) terms thr [w]
        = some (1, t.canonical, maxScore terms (lower w), w) := by
      unfold tryWindows
      rw [hws]
      simp [List.findSome?_cons, htw1]
    refine ⟨t, ht, ?_⟩
    rw [hc]
    have hp2 : pass2go (buildDirect terms) terms thr (([w] : List LC).length) [] [w] []
        = ([t.canonical], [⟨w, t.canonical, maxScore terms (lower w)⟩]) := by
      show pass2go (buildDirect terms) terms thr (0 + 1) [] [w] [] = _
      simp only [pass2go, htws]
      simp [pass2go]
    rw [hp2, joinTok_singleton]
  · intro hlt
    have hfb1 : (fuzzyBest terms (lower w)).1 ≤ maxScore terms (lower w) := by
      unfold fuzzyBest
      rw [fuzzyBest_go (lower w) terms 0 none le_rfl]
      split
      · exact maxScore_nonneg terms (lower w)
      · exact le_rfl
    have hacc : fuzzyAccept thr (fuzzyBest terms (lower w)) = false := by
      unfold fuzzyAccept
      have hd : decide (thr ≤ (fuzzyBest terms (lower w)).1) = false :=
        decide_eq_false (not_le.mpr (lt_of_le_of_lt hfb1 hlt))
      rw [hd, Bool.and_false]
    have htw1 : tryWindow (buildDirect terms) terms thr [w] 1 = none := by
      simp only [tryWindow, hcand, if_neg h4', hfind, Option.isSome_none,
        Bool.false_eq_true, if_false, hacc]
    have htws : tryWindows (buildDirect terms) terms thr [w] = none := by
      unfold tryWindows
      rw [hws]
      simp [List.findSome?_cons, htw1]
    rw [hc]
    have hp2 : pass2go (buildDirect terms) terms thr (([w] : List LC).length) [] [w] []
        = ([w], []) := by
      show pass2go (buildDirect terms) terms thr (0 + 1) [] [w] [] = _
      simp only [pass2go, htws]
      simp [pass2go]
    rw [hp2, joinTok_singleton]

theorem fuzzy_threshold_boundary_witness :
    (∃ t, [(⟨"k".data, "abcde".data, []⟩ : Term)].find?
          (fun t => decide (maxScore [(⟨"k".data, "abcde".data, []⟩ : Term)] (lower ("abcd".data))
            ≤ termBest t (lower ("abcd".data)))) = some t ∧
      correct [(⟨"k".data, "abcde".data, []⟩ : Term)] (8/9) ("abcd".data)
        = (t.canonical, [⟨"abcd".data, t.canonical,
            maxScore [(⟨"k".data, "abcde".data, []⟩ : Term)] (lower ("abcd".data))⟩])) ∧
    correct [(⟨"k".data, "abcde".data, []⟩ : Term)] (9/10) ("abcd".data) = ("abcd".data, []) := by
  constructor
  · exact (fuzzy_threshold_boundary [(⟨"k".data, "abcde".data, []⟩ : Term)] (8/9) ("abcd".data)
      (by decide) (by decide) (by decide) (by decide)).1 (by decide) (by decide)
  · exact (fuzzy_threshold_boundary [(⟨"k".data, "abcde".data, []⟩ : Term)] (9/10) ("abcd".data)
      (by decide) (by decide) (by decide) (by decide)).2 (by decide)

theorem pass1_changes (entries : List (LC × LC)) :
    ∀ (raw : LC) (ch : List Change),
      ∃ d, (pass1 entries raw ch).2 = ch ++ d ∧ (d = [] → (pass1 entries raw ch).1 = raw) := by
  induction entries with
  | nil => intro raw ch; exact ⟨[], by simp [pass1], fun _ => rfl⟩
  | cons p ps ih =>
    intro raw ch
    obtain ⟨al, canon⟩ := p
    by_cases hb : (!al.isEmpty && containsSub (lower raw) al) = true
    · by_cases heq : replace_case_insensitive raw al canon = raw
      · obtain ⟨d, hd1, hd2⟩ := ih (replace_case_insensitive raw al canon) ch
        refine ⟨d, ?_, ?_⟩
        · simp only [pass1, hb, if_true, if_pos heq]
          exact hd1
        · intro hd
          simp only [pass1, hb, if_true, if_pos heq]
          rw [hd2 hd, heq]
      · obtain ⟨d, hd1, hd2⟩ := ih (replace_case_insensitive raw al canon) (ch ++ [⟨al, canon, 1⟩])
        refine ⟨⟨al, canon, 1⟩ :: d, ?_, fun hd => absurd hd (List.cons_ne_nil _ _)⟩
        simp only [pass1, hb, if_true, if_neg heq]
        rw [hd1]
        simp
    · have hb2 : (!al.isEmpty && containsSub (lower raw) al) = false := by
        simpa using hb
      obtain ⟨d, hd1, hd2⟩ := ih raw ch
      refine ⟨d, ?_, ?_⟩
      · simp only [pass1, hb2, Bool.false_eq_true, if_false]
        exact hd1
      · intro hd
        simp only [pass1, hb2, Bool.false_eq_true, if_false]
        exact hd2 hd

theorem pass2go_changes (direct : List (LC × LC)) (terms : List Term) (thr : ℚ) :
    ∀ (fuel : Nat) (done rest : List LC) (ch : List Change),
      ∃ d, (pass2go direct terms thr fuel done rest ch).2 = ch ++ d ∧
        (d = [] → (pass2go direct terms thr fuel done rest ch).1 = done ++ rest) := by
  intro fuel
  induction fuel with
  | zero => intro done rest ch; exact ⟨[], by simp [pass2go], fun _ => by simp [pass2go]⟩
  | succ fuel ih =>
    intro done rest ch
    cases rest with
    | nil => exact ⟨[], by simp [pass2go], fun _ => by simp [pass2go]⟩
    | cons tk rest2 =>
      cases htw : tryWindows direct terms thr (tk :: rest2) with
      | some r =>
        obtain ⟨wz, t, sc, cand⟩ := r
        obtain ⟨d, hd1, hd2⟩ := ih (done ++ [t]) ((tk :: rest2).drop wz) (ch ++ [⟨cand, t, sc⟩])
        refine ⟨⟨cand, t, sc⟩ :: d, ?_, fun hd => absurd hd (List.cons_ne_nil _ _)⟩
        simp only [pass2go, htw]
        rw [hd1]
        simp
      | none =>
        obtain ⟨d, hd1, hd2⟩ := ih (done ++ [tk]) rest2 ch
        refine ⟨d, ?_, ?_⟩
        · simp only [pass2go, htw]
          exact hd1
        · intro hd
          simp only [pass2go, htw]
          rw [hd2 hd]
          simp

theorem correct_fst_of_changes_eq (terms : List Term) (thr : ℚ) (text : LC)
    (h : (correct terms thr text).2 = (pass1 (sortDesc (buildDirect terms)) text []).2) :
    (correct terms thr text).1 = normWs ((pass1 (sortDesc (buildDirect terms)) text []).1) := by
  have hfst : (correct terms thr text).1
      = joinTok (pass2go (buildDirect terms) terms thr
          (splitWs (pass1 (sortDesc (buildDirect terms)) text []).1).length []
          (splitWs (pass1 (sortDesc (buildDirect terms)) text []).1)
          (pass1 (sortDesc (buildDirect terms)) text []).2).1 := rfl
  have hsnd : (correct terms thr text).2
      = (pass2go (buildDirect terms) terms thr
          (splitWs (pass1 (sortDesc (buildDirect terms)) text []).1).length []
          (splitWs (pass1 (sortDesc (buildDirect terms)) text []).1)
          (pass1 (sortDesc (buildDirect terms)) text []).2).2 := rfl
  obtain ⟨d, hd1, hd2⟩ := pass2go_changes (buildDirect terms) terms thr
    (splitWs (pass1 (sortDesc (buildDirect terms)) text []).1).length []
    (splitWs (pass1 (sortDesc (buildDirect terms)) text []).1)
    (pass1 (sortDesc (buildDirect terms)) text []).2
  rw [hsnd, hd1] at h
  have hdnil : d = [] := by
    have hl := congrArg List.length h
    simp at hl
    exact hl
  rw [hfst, hd2 hdnil]
  simp [normWs]

/-- C10 (amended): whenever the fuzzy pass adds no correction — in particular
whenever the corrections list is empty — the string `correct` returns is the
whitespace-normalized form of the direct-pass-substituted text (whitespace
runs collapse to single spaces, leading/trailing whitespace is dropped), so
`correct` is not the identity on text differing from its corrected form only
in whitespace; when the fuzzy pass does substitute, the result is the
normalized join of the substituted tokens instead (see the counterexample). -/
theorem correct_normWs_of_no_fuzzy_change (terms : List Term) (thr : ℚ) (text : LC)
    (h : (correct terms thr text).2 = (pass1 (sortDesc (buildDirect terms)) text []).2) :
    (correct terms thr text).1 = normWs ((pass1 (sortDesc (buildDirect terms)) text []).1) :=
  correct_fst_of_changes_eq terms thr text h

/-- C10 counterexample: with the dictionary {canonical "abcde"} and input
"abcd" the fuzzy pass substitutes (similarity 8/9 ≥ 0.86), so the returned
string is not the whitespace-normalized direct-pass-substituted text. -/
theorem correct_normWs_cex :
    (correct [(⟨"k".data, "abcde".data, []⟩ : Term)] (43/50) ("abcd".data)).1
      ≠ normWs ((pass1 (sortDesc (buildDirect [(⟨"k".data, "abcde".data, []⟩ : Term)]))
          ("abcd".data) []).1) := by
  decide

theorem correct_normWs_witness :
    (correct [] (43/50) ("a  b".data)).2
        = (pass1 (sortDesc (buildDirect [])) ("a  b".data) []).2 ∧
    (correct [] (43/50) ("a  b".data)).1
        = normWs ((pass1 (sortDesc (buildDirect [])) ("a  b".data) []).1) ∧
    (correct [] (43/50) ("a  b".data)).1 ≠ "a  b".data := by
  refine ⟨by decide, correct_normWs_of_no_fuzzy_change [] (43/50) ("a  b".data) (by decide),
    by decide⟩

/-- C1 counterexample: the direct pass replaces only the *first*
case-insensitive occurrence of each alias per call, so with alias "ab" →
canonical "X" and input "ab ab", the first call yields "X ab" and a second
call on that output records a further Correction. -/
theorem correct_second_pass_changes_cex :
    (correct [(⟨"k".data, "X".data, ["ab".data]⟩ : Term)] (43/50)
        ((correct [(⟨"k".data, "X".data, ["ab".data]⟩ : Term)] (43/50) ("ab ab".data)).1)).2
      ≠ [] := by
  decide

/-- C1 (amended): a second `correct` run yields no further Correction records
when the first run recorded none and the input was already
whitespace-normal; in general direct replacement is not idempotent, because
each direct entry rewrites only the first occurrence per call and whitespace
collapse can expose new matches (see the counterexample). -/
theorem correct_idempotent_of_nochange (terms : List Term) (thr : ℚ) (text : LC)
    (hn : normWs text = text)
    (h : (correct terms thr text).2 = []) :
    (correct terms thr ((correct terms thr text).1)).2 = [] := by
  have hsnd : (correct terms thr text).2
      = (pass2go (buildDirect terms) terms thr
          (splitWs (pass1 (sortDesc (buildDirect terms)) text []).1).length []
          (splitWs (pass1 (sortDesc (buildDirect terms)) text []).1)
          (pass1 (sortDesc (buildDirect terms)) text []).2).2 := rfl
  obtain ⟨d, hd1, _⟩ := pass2go_changes (buildDirect terms) terms thr
    (splitWs (pass1 (sortDesc (buildDirect terms)) text []).1).length []
    (splitWs (pass1 (sortDesc (buildDirect terms)) text []).1)
    (pass1 (sortDesc (buildDirect terms)) text []).2
  have h0 : (pass1 (sortDesc (buildDirect terms)) text []).2 ++ d = [] := by
    rw [← hd1, ← hsnd]
    exact h
  have hp12 : (pass1 (sortDesc (buildDirect terms)) text []).2 = [] :=
    (List.append_eq_nil.mp h0).1
  have hout : (correct terms thr text).1 = normWs text := by
    have heq := correct_fst_of_changes_eq terms thr text (by rw [h, hp12])
    obtain ⟨d2, hq1, hq2⟩ := pass1_changes (sortDesc (buildDirect terms)) text []
    have hd2nil : d2 = [] := by
      rw [hp12] at hq1
      simpa using hq1.symm
    rw [heq, hq2 hd2nil]
  rw [hout, hn]
  exact h

theorem correct_idempotent_witness :
    normWs ("cd".data) = "cd".data ∧
    (correct [(⟨"k".data, "X".data, ["ab".data]⟩ : Term)] (43/50) ("cd".data)).2 = [] ∧
    (correct [(⟨"k".data, "X".data, ["ab".data]⟩ : Term)] (43/50)
        ((correct [(⟨"k".data, "X".data, ["ab".data]⟩ : Term)] (43/50) ("cd".data)).1)).2
      = [] := by
  refine ⟨by decide, by decide, correct_idempotent_of_nochange _ _ _ (by decide) (by decide)⟩

theorem mapOpt_isSome {α : Type} (f : J → Option α) :
    ∀ xs : List J, (mapOpt f xs).isSome = true ↔ ∀ x ∈ xs, (f x).isSome = true := by
  intro xs
  induction xs with
  | nil => simp [mapOpt]
  | cons x xs ih =>
    simp only [mapOpt]
    cases hf : f x with
    | none => simp [hf]
    | some y =>
      cases hm : mapOpt f xs with
      | none => simp [hf, hm, ← ih]
      | some ys => simp [hf, hm, ← ih]

theorem parseTermJ_isSome (x : J) :
    (parseTermJ x).isSome = true ↔
      (jget x keyS).isSome = true ∧ (jget x canonicalS).isSome = true := by
  unfold parseTermJ
  cases jget x keyS <;> cases jget x canonicalS <;> simp

/-- C8 (amended): dictionary load fails when `terms` is absent or a term
entry lacks `key` or `canonical`; but a missing `aliases` defaults to the
empty list and a missing `categories` defaults to the empty mapping, and the
load succeeds (the claim held those absences fatal — see the
counterexample). -/
theorem load_requires_key_canonical (doc : J) (xs : List J)
    (h : jget doc termsS = some (J.arr xs)) :
    ((loadTerms doc).isSome = true ↔
      ∀ x ∈ xs, (jget x keyS).isSome = true ∧ (jget x canonicalS).isSome = true) ∧
    (∀ d : J, jget d termsS = none → loadTerms d = none) := by
  constructor
  · unfold loadTerms
    rw [h]
    have hmap : ∀ o : Option (List (J × J × J)),
        (o.map (fun ts => (ts, jgetD doc categoriesS (J.obj [])))).isSome = o.isSome := by
      intro o
      cases o <;> rfl
    rw [hmap, mapOpt_isSome]
    constructor
    · intro hall x hx
      exact (parseTermJ_isSome x).mp (hall x hx)
    · intro hall x hx
      exact (parseTermJ_isSome x).mpr (hall x hx)
  · intro d hd
    unfold loadTerms
    rw [hd]

/-- C8 counterexample: a document whose single term entry has `key` and
`canonical` but no `aliases`, and which has no `categories`, loads
successfully — the claim required the load to fail. -/
theorem load_missing_optional_fields_cex : (loadTerms doc0).isSome = true := by
  decide

theorem load_requires_key_canonical_witness :
    jget doc0 termsS
        = some (J.arr [J.obj [(keyS, J.str ("k".data)), (canonicalS, J.str ("c".data))]]) ∧
    (((loadTerms doc0).isSome = true ↔
        ∀ x ∈ [J.obj [(keyS, J.str ("k".data)), (canonicalS, J.str ("c".data))]],
          (jget x keyS).isSome = true ∧ (jget x canonicalS).isSome = true) ∧
      (∀ d : J, jget d termsS = none → loadTerms d = none)) :=
  ⟨rfl, load_requires_key_canonical doc0 _ rfl⟩

end
